import Mathlib

/-
Verification of the mpmath signal functions (src/mpmath/functions/signals.py)
against their natural-language specification.

The five functions are pure closed-form mathematical maps evaluated under an
arbitrary-precision numeric context.  We embed them over the exact reals: the
context primitives floor, abs and exp are the mathematical ones (Int.floor,
abs, Real.exp), and the fractional-part primitive ctx.frac — whose code lives
outside the sources — is modelled from the spec as frac(x) = x - floor(x).
Python float literals 0.25 and 0.5 appearing in the source are exactly
representable, so they translate to the rationals 1/4 and 1/2.
-/

namespace MpmathSignals

/-- Modelled from the spec: the numeric context primitive `frac`
(mpmath ctx.frac, not part of the sources), defined by the spec as
frac(x) = x - floor(x), always in [0, 1). -/
noncomputable def ctxFrac (x : ℝ) : ℝ := x - ⌊x⌋

lemma ctxFrac_eq_fract (x : ℝ) : ctxFrac x = Int.fract x := rfl

/-- squarew from signals.py: `A*((-1)**ctx.floor(2*t/P))`. The exponent is the
integer floor, and the power is integer (zpow) exponentiation of -1. -/
noncomputable def squarew (t A P : ℝ) : ℝ := A * (-1 : ℝ) ^ ⌊2 * t / P⌋

/-- trianglew from signals.py: `2*A*(0.5 - ctx.fabs(1 - 2*ctx.frac(t/P + 0.25)))`. -/
noncomputable def trianglew (t A P : ℝ) : ℝ :=
  2 * A * (1 / 2 - |1 - 2 * ctxFrac (t / P + 1 / 4)|)

/-- sawtoothw from signals.py: `A*ctx.frac(t/P)`. -/
noncomputable def sawtoothw (t A P : ℝ) : ℝ := A * ctxFrac (t / P)

/-- unit_triangle from signals.py:
`if t <= -1 or t >= 1: return 0` then `return A*(-abs(t) + 1)`. -/
noncomputable def unit_triangle (t A : ℝ) : ℝ :=
  if t ≤ -1 ∨ 1 ≤ t then 0 else A * (-|t| + 1)

/-- sigmoidw from signals.py: `A / (1 + ctx.exp(-t))`. -/
noncomputable def sigmoidw (t A : ℝ) : ℝ := A / (1 + Real.exp (-t))

/- Shared helper lemmas (used by several claim proofs). -/

lemma unit_triangle_of_one_le_abs (t A : ℝ) (h : 1 ≤ |t|) : unit_triangle t A = 0 := by
  have : t ≤ -1 ∨ 1 ≤ t := by
    rcases le_abs.mp h with h1 | h1
    · exact Or.inr h1
    · exact Or.inl (by linarith)
  simp [unit_triangle, this]

lemma unit_triangle_of_abs_lt (t A : ℝ) (h : |t| < 1) : unit_triangle t A = A * (-|t| + 1) := by
  rcases abs_lt.mp h with ⟨h1, h2⟩
  have : ¬ (t ≤ -1 ∨ 1 ≤ t) := by
    push_neg
    exact ⟨by linarith, by linarith⟩
  simp [unit_triangle, this]

/-- C4: for every real t and amplitude A, unit_triangle returns exactly 0 when
|t| >= 1 (including t = 1 and t = -1), and A*(1 - |t|) when |t| < 1. -/
theorem unit_triangle_spec (t A : ℝ) :
    (1 ≤ |t| → unit_triangle t A = 0) ∧
    (|t| < 1 → unit_triangle t A = A * (1 - |t|)) := by
  constructor
  · exact fun h => unit_triangle_of_one_le_abs t A h
  · intro h
    rw [unit_triangle_of_abs_lt t A h]
    ring

/-- C4 witness: concrete instances, at the boundary t = 1 and inside at t = 1/2. -/
theorem unit_triangle_spec_witness :
    (unit_triangle 1 1 = 0) ∧ (unit_triangle (1 / 2) 1 = 1 * (1 - |(1 / 2 : ℝ)|)) :=
  ⟨(unit_triangle_spec 1 1).1 (by simp),
   (unit_triangle_spec (1 / 2) 1).2 (by rw [abs_of_nonneg]; repeat norm_num)⟩

/-- C5: for every real t and amplitude A, sigmoidw returns A / (1 + exp(-t)),
and sigmoidw 0 A equals A/2 exactly. -/
theorem sigmoidw_spec (t A : ℝ) :
    sigmoidw t A = A / (1 + Real.exp (-t)) ∧ sigmoidw 0 A = A / 2 := by
  refine ⟨rfl, ?_⟩
  simp [sigmoidw, Real.exp_zero]
  norm_num

lemma div_const_div_self (P c : ℝ) (hP : P ≠ 0) : P / c / P = 1 / c := by
  rw [div_div, mul_comm, ← div_div, div_self hP]

/-- C1: for every real t, amplitude A and nonzero period P, squarew returns
A * (-1)^floor(2t/P), the sign given exactly by the parity of the integer
floor (also when it is negative); consequently the value is A on [0, P/2)
and -A on [P/2, P). -/
theorem squarew_spec (t A P : ℝ) (_hP : P ≠ 0) :
    squarew t A P = A * (-1 : ℝ) ^ ⌊2 * t / P⌋ ∧
    squarew t A P = (if Even ⌊2 * t / P⌋ then A else -A) ∧
    (0 ≤ t → t < P / 2 → squarew t A P = A) ∧
    (P / 2 ≤ t → t < P → squarew t A P = -A) := by
  refine ⟨rfl, ?_, ?_, ?_⟩
  · rcases Int.even_or_odd ⌊2 * t / P⌋ with he | ho
    · have h1 : (-1 : ℝ) ^ ⌊2 * t / P⌋ = 1 := he.neg_one_zpow
      simp [squarew, h1, he]
    · have h1 : (-1 : ℝ) ^ ⌊2 * t / P⌋ = -1 := ho.neg_one_zpow
      have h2 : ¬ Even ⌊2 * t / P⌋ := Int.not_even_iff_odd.mpr ho
      simp [squarew, h1, h2]
  · intro h0 h1
    have hP2 : 0 < P := by linarith
    have hf : ⌊2 * t / P⌋ = 0 := by
      rw [Int.floor_eq_zero_iff]
      refine Set.mem_Ico.mpr ⟨div_nonneg (by linarith) hP2.le, ?_⟩
      rw [div_lt_one hP2]
      linarith
    simp [squarew, hf]
  · intro h1 h2
    have hP2 : 0 < P := by linarith
    have hf : ⌊2 * t / P⌋ = 1 := by
      apply Int.floor_eq_iff.mpr
      constructor
      · push_cast
        rw [le_div_iff₀ hP2]
        linarith
      · push_cast
        rw [div_lt_iff₀ hP2]
        linarith
    simp [squarew, hf]

/-- C1 witness: at t = 1, A = 1, P = 2 the wave sits in the second half-period
and evaluates to -1. -/
theorem squarew_spec_witness :
    (2 : ℝ) ≠ 0 ∧ squarew 1 1 2 = -1 :=
  ⟨two_ne_zero, (squarew_spec 1 1 2 two_ne_zero).2.2.2 (by norm_num) (by norm_num)⟩

/-- C2: for every real t, amplitude A and nonzero period P, trianglew returns
2*A*(1/2 - |1 - 2*frac(t/P + 1/4)|) with frac(x) = x - floor(x) in [0, 1);
its values at t = 0, P/4, P/2, 3P/4 are 0, A, 0, -A. -/
theorem trianglew_spec (t A P : ℝ) (hP : P ≠ 0) :
    trianglew t A P = 2 * A * (1 / 2 - |1 - 2 * ctxFrac (t / P + 1 / 4)|) ∧
    (∀ x : ℝ, ctxFrac x = x - ⌊x⌋ ∧ 0 ≤ ctxFrac x ∧ ctxFrac x < 1) ∧
    trianglew 0 A P = 0 ∧ trianglew (P / 4) A P = A ∧
    trianglew (P / 2) A P = 0 ∧ trianglew (3 * P / 4) A P = -A := by
  refine ⟨rfl, ?_, ?_, ?_, ?_, ?_⟩
  · intro x
    refine ⟨rfl, ?_, ?_⟩
    · rw [ctxFrac_eq_fract]
      exact Int.fract_nonneg x
    · rw [ctxFrac_eq_fract]
      exact Int.fract_lt_one x
  · have h1 : (0 : ℝ) / P + 1 / 4 = 1 / 4 := by rw [zero_div]; norm_num
    have h2 : ctxFrac (1 / 4 : ℝ) = 1 / 4 := by
      rw [ctxFrac_eq_fract]
      exact Int.fract_eq_self.mpr ⟨by norm_num, by norm_num⟩
    rw [trianglew, h1, h2,
      abs_of_nonneg (by norm_num : (0 : ℝ) ≤ 1 - 2 * (1 / 4))]
    ring
  · have h1 : P / 4 / P + 1 / 4 = 1 / 2 := by
      rw [div_const_div_self P 4 hP]; norm_num
    have h2 : ctxFrac (1 / 2 : ℝ) = 1 / 2 := by
      rw [ctxFrac_eq_fract]
      exact Int.fract_eq_self.mpr ⟨by norm_num, by norm_num⟩
    rw [trianglew, h1, h2,
      abs_of_nonneg (by norm_num : (0 : ℝ) ≤ 1 - 2 * (1 / 2))]
    ring
  · have h1 : P / 2 / P + 1 / 4 = 3 / 4 := by
      rw [div_const_div_self P 2 hP]; norm_num
    have h2 : ctxFrac (3 / 4 : ℝ) = 3 / 4 := by
      rw [ctxFrac_eq_fract]
      exact Int.fract_eq_self.mpr ⟨by norm_num, by norm_num⟩
    rw [trianglew, h1, h2,
      abs_of_nonpos (by norm_num : (1 : ℝ) - 2 * (3 / 4) ≤ 0)]
    ring
  · have h1 : 3 * P / 4 / P + 1 / 4 = 1 := by
      rw [div_div, mul_comm (4 : ℝ) P, ← div_div, mul_div_assoc, div_self hP, mul_one]
      norm_num
    have h2 : ctxFrac (1 : ℝ) = 0 := by
      rw [ctxFrac_eq_fract]
      exact Int.fract_one
    rw [trianglew, h1, h2,
      abs_of_nonneg (by norm_num : (0 : ℝ) ≤ 1 - 2 * 0)]
    ring

/-- C2 witness: at amplitude 1 and period 2 the quarter-period point gives 1. -/
theorem trianglew_spec_witness :
    (2 : ℝ) ≠ 0 ∧ trianglew ((2 : ℝ) / 4) 1 2 = 1 :=
  ⟨two_ne_zero, (trianglew_spec 0 1 2 two_ne_zero).2.2.2.1⟩

/-- C3: for every real t, amplitude A and nonzero period P, sawtoothw returns
A * frac(t/P), and at every exact period boundary t = k*P the value is
exactly 0. -/
theorem sawtoothw_spec (t A P : ℝ) (hP : P ≠ 0) :
    sawtoothw t A P = A * ctxFrac (t / P) ∧
    ∀ k : ℤ, sawtoothw (k * P) A P = 0 := by
  refine ⟨rfl, ?_⟩
  intro k
  have h1 : ((k : ℝ) * P) / P = (k : ℝ) := by
    rw [mul_div_assoc, div_self hP, mul_one]
  rw [sawtoothw, h1, ctxFrac_eq_fract, Int.fract_intCast, mul_zero]

/-- C3 witness: the period boundary t = 1 * P at P = 2 wraps to exactly 0. -/
theorem sawtoothw_spec_witness :
    (2 : ℝ) ≠ 0 ∧ sawtoothw (((1 : ℤ) : ℝ) * 2) 1 2 = 0 :=
  ⟨two_ne_zero, (sawtoothw_spec 0 1 2 two_ne_zero).2 1⟩

/-- Domain errors of the numeric layer (spec section 7). -/
inductive DomainError where
  | divisionByZero
deriving DecidableEq

/-- Modelled from the spec: division in the numeric context (mpmath real
division, not part of the sources) surfaces a division-by-zero domain error
to the caller when the divisor is zero, rather than silently returning a
NaN or infinity (spec section 7). -/
noncomputable def ctxDiv (x y : ℝ) : Except DomainError ℝ :=
  if y = 0 then Except.error DomainError.divisionByZero else Except.ok (x / y)

/-- squarew evaluated through the error-reporting division: the source
computes 2*t/P first and then applies floor, power and scaling. -/
noncomputable def squarewE (t A P : ℝ) : Except DomainError ℝ :=
  (ctxDiv (2 * t) P).map fun q => A * (-1 : ℝ) ^ ⌊q⌋

/-- trianglew evaluated through the error-reporting division. -/
noncomputable def trianglewE (t A P : ℝ) : Except DomainError ℝ :=
  (ctxDiv t P).map fun q => 2 * A * (1 / 2 - |1 - 2 * ctxFrac (q + 1 / 4)|)

/-- sawtoothw evaluated through the error-reporting division. -/
noncomputable def sawtoothwE (t A P : ℝ) : Except DomainError ℝ :=
  (ctxDiv t P).map fun q => A * ctxFrac q

/-- C6: for every real t and amplitude A, squarew, trianglew and sawtoothw
with period 0 surface an explicit division-by-zero domain error, not a
silent value; for every nonzero period they return the pure value. -/
theorem period_zero_domain_error (t A : ℝ) :
    squarewE t A 0 = Except.error DomainError.divisionByZero ∧
    trianglewE t A 0 = Except.error DomainError.divisionByZero ∧
    sawtoothwE t A 0 = Except.error DomainError.divisionByZero ∧
    (∀ P : ℝ, P ≠ 0 →
      squarewE t A P = Except.ok (squarew t A P) ∧
      trianglewE t A P = Except.ok (trianglew t A P) ∧
      sawtoothwE t A P = Except.ok (sawtoothw t A P)) := by
  refine ⟨?_, ?_, ?_, ?_⟩
  · simp [squarewE, ctxDiv, Except.map]
  · simp [trianglewE, ctxDiv, Except.map]
  · simp [sawtoothwE, ctxDiv, Except.map]
  · intro P hP
    refine ⟨?_, ?_, ?_⟩
    · simp [squarewE, ctxDiv, hP, squarew, Except.map]
    · simp [trianglewE, ctxDiv, hP, trianglew, Except.map]
    · simp [sawtoothwE, ctxDiv, hP, sawtoothw, Except.map]

/-- C6 witness: with a nonzero period the checked square wave returns the
pure value through Except.ok. -/
theorem period_zero_domain_error_witness :
    (2 : ℝ) ≠ 0 ∧ squarewE 0 1 2 = Except.ok (squarew 0 1 2) :=
  ⟨two_ne_zero, ((period_zero_domain_error 0 1).2.2.2 2 two_ne_zero).1⟩

/-- C7: each of the three periodic waves is invariant under a shift of the
time argument by one full period. -/
theorem periodicity (t A P : ℝ) (hP : P ≠ 0) :
    squarew (t + P) A P = squarew t A P ∧
    trianglew (t + P) A P = trianglew t A P ∧
    sawtoothw (t + P) A P = sawtoothw t A P := by
  refine ⟨?_, ?_, ?_⟩
  · have h1 : 2 * (t + P) / P = 2 * t / P + ((2 : ℤ) : ℝ) := by
      push_cast
      field_simp
      ring
    have h2 : (-1 : ℝ) ^ (2 : ℤ) = 1 := by norm_num
    rw [squarew, squarew, h1, Int.floor_add_int,
      zpow_add₀ (by norm_num : (-1 : ℝ) ≠ 0), h2, mul_one]
  · have h1 : (t + P) / P + 1 / 4 = (t / P + 1 / 4) + ((1 : ℤ) : ℝ) := by
      push_cast
      field_simp
      ring
    rw [trianglew, trianglew, h1, ctxFrac_eq_fract, ctxFrac_eq_fract,
      Int.fract_add_int]
  · have h1 : (t + P) / P = t / P + ((1 : ℤ) : ℝ) := by
      push_cast
      field_simp
    rw [sawtoothw, sawtoothw, h1, ctxFrac_eq_fract, ctxFrac_eq_fract,
      Int.fract_add_int]

/-- C7 witness: period-2 shifts at t = 1 reproduce the same values. -/
theorem periodicity_witness :
    (2 : ℝ) ≠ 0 ∧ sawtoothw (1 + 2) 1 2 = sawtoothw 1 1 2 :=
  ⟨two_ne_zero, (periodicity 1 1 2 two_ne_zero).2.2⟩

/-- C10: shifting the square wave by half a period flips its sign, because
floor(2(t + P/2)/P) = floor(2t/P) + 1 flips the parity of the exponent. -/
theorem squarew_half_period (t A P : ℝ) (hP : P ≠ 0) :
    squarew (t + P / 2) A P = -squarew t A P := by
  have h1 : 2 * (t + P / 2) / P = 2 * t / P + ((1 : ℤ) : ℝ) := by
    push_cast
    field_simp
    ring
  rw [squarew, squarew, h1, Int.floor_add_int,
    zpow_add₀ (by norm_num : (-1 : ℝ) ≠ 0), zpow_one]
  ring

/-- C10 witness: at t = 0, P = 2 the half-period shift negates the value. -/
theorem squarew_half_period_witness :
    (2 : ℝ) ≠ 0 ∧ squarew (0 + 2 / 2) 1 2 = -squarew 0 1 2 :=
  ⟨two_ne_zero, squarew_half_period 0 1 2 two_ne_zero⟩

/-- C8 counterexample: the claimed range bounds fail for negative amplitude.
At t = 1, A = -1, P = 2 the sawtooth value is -1/2, which violates the
claimed membership in [0, A): the output is negative. -/
theorem range_bounds_cex :
    sawtoothw 1 (-1) 2 = -(1 / 2) ∧ ¬ (0 ≤ sawtoothw 1 (-1) 2) := by
  have h : sawtoothw 1 (-1) 2 = -(1 / 2) := by
    rw [sawtoothw, ctxFrac_eq_fract,
      Int.fract_eq_self.mpr ⟨by norm_num, by norm_num⟩]
    norm_num
  refine ⟨h, ?_⟩
  rw [h]
  norm_num

/-- C8 amended: for positive amplitude A and nonzero period P, the outputs
satisfy the range bounds: squarew in {-A, A} (this part holds for every A),
trianglew in [-A, A], sawtoothw in [0, A), unit_triangle in [0, A] for
|t| < 1 and exactly 0 otherwise, sigmoidw in the open interval (0, A). -/
theorem range_bounds_amended (t A P : ℝ) (hA : 0 < A) (_hP : P ≠ 0) :
    (squarew t A P = A ∨ squarew t A P = -A) ∧
    (-A ≤ trianglew t A P ∧ trianglew t A P ≤ A) ∧
    (0 ≤ sawtoothw t A P ∧ sawtoothw t A P < A) ∧
    (|t| < 1 → 0 ≤ unit_triangle t A ∧ unit_triangle t A ≤ A) ∧
    (1 ≤ |t| → unit_triangle t A = 0) ∧
    (0 < sigmoidw t A ∧ sigmoidw t A < A) := by
  refine ⟨?_, ?_, ?_, ?_, ?_, ?_⟩
  · rcases Int.even_or_odd ⌊2 * t / P⌋ with he | ho
    · left
      rw [squarew, he.neg_one_zpow, mul_one]
    · right
      rw [squarew, ho.neg_one_zpow, mul_neg_one]
  · have h0 : 0 ≤ Int.fract (t / P + 1 / 4) := Int.fract_nonneg _
    have h1 : Int.fract (t / P + 1 / 4) < 1 := Int.fract_lt_one _
    have habs : |1 - 2 * Int.fract (t / P + 1 / 4)| ≤ 1 :=
      abs_le.mpr ⟨by linarith, by linarith⟩
    have habs0 : 0 ≤ |1 - 2 * Int.fract (t / P + 1 / 4)| := abs_nonneg _
    have key : A * |1 - 2 * Int.fract (t / P + 1 / 4)| ≤ A * 1 :=
      mul_le_mul_of_nonneg_left habs hA.le
    have key0 : 0 ≤ A * |1 - 2 * Int.fract (t / P + 1 / 4)| :=
      mul_nonneg hA.le habs0
    constructor
    · rw [trianglew, ctxFrac_eq_fract]
      nlinarith
    · rw [trianglew, ctxFrac_eq_fract]
      nlinarith
  · rw [sawtoothw, ctxFrac_eq_fract]
    exact ⟨mul_nonneg hA.le (Int.fract_nonneg _),
      mul_lt_of_lt_one_right hA (Int.fract_lt_one _)⟩
  · intro h
    rw [unit_triangle_of_abs_lt t A h]
    constructor
    · exact mul_nonneg hA.le (by linarith)
    · calc A * (-|t| + 1) ≤ A * 1 :=
            mul_le_mul_of_nonneg_left (by linarith [abs_nonneg t]) hA.le
        _ = A := mul_one A
  · exact fun h => unit_triangle_of_one_le_abs t A h
  · have he : 0 < Real.exp (-t) := Real.exp_pos _
    constructor
    · rw [sigmoidw]
      exact div_pos hA (by linarith)
    · rw [sigmoidw]
      exact div_lt_self hA (by linarith)

/-- C8 amended witness: at t = 0, A = 1, P = 2 the sigmoid value lies
strictly between 0 and the amplitude. -/
theorem range_bounds_amended_witness :
    (0 : ℝ) < 1 ∧ (2 : ℝ) ≠ 0 ∧ (0 < sigmoidw 0 1 ∧ sigmoidw 0 1 < 1) :=
  ⟨one_pos, two_ne_zero, (range_bounds_amended 0 1 2 one_pos two_ne_zero).2.2.2.2.2⟩

/-- The numeric context as the signal functions see it: an ambient working
precision that every call may read and none writes. -/
structure Ctx where
  prec : ℕ

/-- Modelled from the spec: state-passing translation of squarew. Its body is
a single return expression whose only context interaction is the read-only
primitive ctx.floor, so the call returns the context unchanged (spec
section 3: the core never mutates the context). -/
noncomputable def squarewS (s : Ctx) (t A P : ℝ) : ℝ × Ctx := (squarew t A P, s)

/-- Modelled from the spec: state-passing translation of trianglew, which
only reads the context through ctx.frac and ctx.fabs. -/
noncomputable def trianglewS (s : Ctx) (t A P : ℝ) : ℝ × Ctx := (trianglew t A P, s)

/-- Modelled from the spec: state-passing translation of sawtoothw, which
only reads the context through ctx.frac. -/
noncomputable def sawtoothwS (s : Ctx) (t A P : ℝ) : ℝ × Ctx := (sawtoothw t A P, s)

/-- Modelled from the spec: state-passing translation of unit_triangle, which
takes no context at all in the source and so trivially leaves it unchanged. -/
noncomputable def unit_triangleS (s : Ctx) (t A : ℝ) : ℝ × Ctx := (unit_triangle t A, s)

/-- Modelled from the spec: state-passing translation of sigmoidw, which only
reads the context through ctx.exp. -/
noncomputable def sigmoidwS (s : Ctx) (t A : ℝ) : ℝ × Ctx := (sigmoidw t A, s)

/-- C9: every one of the five functions is deterministic and stateless: each
call leaves the numeric context unchanged, and a second call with identical
arguments, run in the state left behind by the first, returns the identical
output. -/
theorem purity_determinism (s : Ctx) (t A P : ℝ) :
    ((squarewS s t A P).2 = s ∧
      (squarewS (squarewS s t A P).2 t A P).1 = (squarewS s t A P).1) ∧
    ((trianglewS s t A P).2 = s ∧
      (trianglewS (trianglewS s t A P).2 t A P).1 = (trianglewS s t A P).1) ∧
    ((sawtoothwS s t A P).2 = s ∧
      (sawtoothwS (sawtoothwS s t A P).2 t A P).1 = (sawtoothwS s t A P).1) ∧
    ((unit_triangleS s t A).2 = s ∧
      (unit_triangleS (unit_triangleS s t A).2 t A).1 = (unit_triangleS s t A).1) ∧
    ((sigmoidwS s t A).2 = s ∧
      (sigmoidwS (sigmoidwS s t A).2 t A).1 = (sigmoidwS s t A).1) :=
  ⟨⟨rfl, rfl⟩, ⟨rfl, rfl⟩, ⟨rfl, rfl⟩, ⟨rfl, rfl⟩, ⟨rfl, rfl⟩⟩

end MpmathSignals
